import Mathlib

/-!
Shallow embedding of the plane-stress visualization core
(stress-transformation math, principal-angle formulas, curve sampler with
zero-crossing markers, animation smoothing, viewport zoom/pan state), together
with theorems settling the spec's claims against the embedded code.

Real-valued JS arithmetic is modelled over `ℝ`; `Math.atan2 y x` is modelled as
`Complex.arg ⟨x, y⟩` (same range `(-π, π]`, same `atan2 0 0 = 0`); the JS `%`
remainder (truncated toward zero) is modelled explicitly by `jsrem`.
-/

noncomputable section

open Real

/-- `Math.atan2 y x`, modelled as the argument of the complex number `x + y·i`.
Like JS `atan2`, the result lies in `(-π, π]` and `atan2 0 0 = 0`. -/
def atan2 (y x : ℝ) : ℝ := Complex.arg ⟨x, y⟩

/-- JS truncation toward zero (`Math.trunc`, the rounding used by the `%`
remainder operator). -/
def jstrunc (x : ℝ) : ℤ := if 0 ≤ x then ⌊x⌋ else ⌈x⌉

/-- The JS remainder `x % y`: `x - y * trunc (x / y)` (sign follows `x`). -/
def jsrem (x y : ℝ) : ℝ := x - y * jstrunc (x / y)

/-- The normalization `a => ((a % 180) + 180) % 180` used by
`getPrincipalAngles` in `App.jsx` to put an angle into `[0, 180)`. -/
def jsnormalize (a : ℝ) : ℝ := jsrem (jsrem a 180 + 180) 180

/-- `DEG2RAD` from `StressGraph.jsx` / `BodyOrientation.jsx`. -/
def DEG2RAD : ℝ := Real.pi / 180

/-- `sigma_x_prime` as computed in `BodyOrientation`'s `draw`:
`avg + diff * cos(2*rad) + tauXY * sin(2*rad)`. -/
def sigmaXPrime (sigmaX sigmaY tauXY theta : ℝ) : ℝ :=
  (sigmaX + sigmaY) / 2 + (sigmaX - sigmaY) / 2 * Real.cos (2 * (theta * DEG2RAD))
    + tauXY * Real.sin (2 * (theta * DEG2RAD))

/-- `sigma_y_prime` as computed in `BodyOrientation`'s `draw`:
`avg - diff * cos(2*rad) - tauXY * sin(2*rad)`. -/
def sigmaYPrime (sigmaX sigmaY tauXY theta : ℝ) : ℝ :=
  (sigmaX + sigmaY) / 2 - (sigmaX - sigmaY) / 2 * Real.cos (2 * (theta * DEG2RAD))
    - tauXY * Real.sin (2 * (theta * DEG2RAD))

/-- `tau_prime` as computed in `BodyOrientation`'s `draw` (and the `tau` of
`computeCurves`): `-diff * sin(2*rad) + tauXY * cos(2*rad)`. -/
def tauPrime (sigmaX sigmaY tauXY theta : ℝ) : ℝ :=
  -((sigmaX - sigmaY) / 2) * Real.sin (2 * (theta * DEG2RAD))
    + tauXY * Real.cos (2 * (theta * DEG2RAD))

/-- The principal angle `thetaP1` of `MohrsCircle.jsx`'s `derived` memo:
`(Math.atan2(tauXY, diff) * 180) / Math.PI / 2` with `diff = (sigmaX - sigmaY)/2`.
Note the source applies no degeneracy guard here. -/
def mohrThetaP1 (sigmaX sigmaY tauXY : ℝ) : ℝ :=
  atan2 tauXY ((sigmaX - sigmaY) / 2) * 180 / Real.pi / 2

/-- The raw (pre-normalization) display angle of `getPrincipalAngles` in
`App.jsx`: `0.5 * Math.atan2(2 * tauXY, diff) * 180 / Math.PI` with
`diff = sigmaX - sigmaY`. -/
def curveDisplayAngle (sigmaX sigmaY tauXY : ℝ) : ℝ :=
  0.5 * atan2 (2 * tauXY) (sigmaX - sigmaY) * 180 / Real.pi

/-- `getPrincipalAngles` from `App.jsx`: `null` when
`|sigmaX - sigmaY| < 1e-9 && |tauXY| < 1e-9`, otherwise the pair
`[angle, angle + 90]` each normalized by `((a % 180) + 180) % 180`. -/
def getPrincipalAngles (sigmaX sigmaY tauXY : ℝ) : Option (ℝ × ℝ) :=
  open scoped Classical in
  if |sigmaX - sigmaY| < 1e-9 ∧ |tauXY| < 1e-9 then none
  else
    some (jsnormalize (curveDisplayAngle sigmaX sigmaY tauXY),
          jsnormalize (curveDisplayAngle sigmaX sigmaY tauXY + 90))

/-- The two `atan2` calls of the two principal-angle paths see proportional
arguments (`(2·tauXY, sigmaX−sigmaY) = 2·(tauXY, (sigmaX−sigmaY)/2)`), so they
return the same angle. -/
theorem atan2_double_args (y x : ℝ) : atan2 (2 * y) x = atan2 y (x / 2) := by
  unfold atan2
  have h : (⟨x, 2 * y⟩ : ℂ) = (2 : ℝ) * ⟨x / 2, y⟩ := by
    apply Complex.ext <;> simp <;> ring
  rw [h, Complex.arg_real_mul _ (by norm_num)]

theorem jstrunc_of_nonneg {x : ℝ} (h : 0 ≤ x) : jstrunc x = ⌊x⌋ := if_pos h

theorem jsrem_of_nonneg {x : ℝ} (h : 0 ≤ x) :
    jsrem x 180 = 180 * Int.fract (x / 180) := by
  unfold jsrem
  rw [jstrunc_of_nonneg (by positivity), Int.fract]
  ring

theorem jsrem_neg_bounds {x : ℝ} (h : x < 0) :
    -180 < jsrem x 180 ∧ jsrem x 180 ≤ 0 := by
  have hd : x / 180 < 0 := div_neg_of_neg_of_pos h (by norm_num)
  unfold jsrem jstrunc
  rw [if_neg (not_le.mpr hd)]
  have h1 : (⌈x / 180⌉ : ℝ) < x / 180 + 1 := Int.ceil_lt_add_one _
  have h2 : x / 180 ≤ (⌈x / 180⌉ : ℝ) := Int.le_ceil _
  constructor <;> linarith

/-- The JS normalization `((a % 180) + 180) % 180` always lands in `[0, 180)`. -/
theorem jsnormalize_mem (a : ℝ) : 0 ≤ jsnormalize a ∧ jsnormalize a < 180 := by
  have hnn : 0 ≤ jsrem a 180 + 180 := by
    rcases lt_or_le a 0 with ha | ha
    · have := (jsrem_neg_bounds ha).1
      linarith
    · rw [jsrem_of_nonneg ha]
      have := Int.fract_nonneg (a / 180)
      linarith
  unfold jsnormalize
  rw [jsrem_of_nonneg hnn]
  constructor
  · have := Int.fract_nonneg ((jsrem a 180 + 180) / 180)
    linarith
  · have := Int.fract_lt_one ((jsrem a 180 + 180) / 180)
    linarith

/-- C1: trace preservation. The transformed normal stresses of
`BodyOrientation`'s `draw` sum to `sigmaX + sigmaY` (exactly, hence within
`1e-9`) for every stress state and every angle. -/
theorem trace_preserved (sigmaX sigmaY tauXY theta : ℝ) :
    |sigmaXPrime sigmaX sigmaY tauXY theta + sigmaYPrime sigmaX sigmaY tauXY theta
      - (sigmaX + sigmaY)| ≤ 1e-9 := by
  have h : sigmaXPrime sigmaX sigmaY tauXY theta + sigmaYPrime sigmaX sigmaY tauXY theta
      - (sigmaX + sigmaY) = 0 := by
    unfold sigmaXPrime sigmaYPrime
    ring
  rw [h]
  norm_num

/-- C2: for every non-hydrostatic stress state, the circle-mapper principal
angle (`MohrsCircle`'s `derived.thetaP1`) and the curve-view display angle
(`App.jsx`'s `getPrincipalAngles` base formula) are equal modulo 180° — in
fact they are exactly equal, since `atan2(2·tauXY, sigmaX−sigmaY)` and
`atan2(tauXY, (sigmaX−sigmaY)/2)` see proportional arguments. -/
theorem principal_angle_formulas_agree (sigmaX sigmaY tauXY : ℝ)
    (h : ¬(|sigmaX - sigmaY| < 1e-9 ∧ |tauXY| < 1e-9)) :
    ∃ k : ℤ, mohrThetaP1 sigmaX sigmaY tauXY - curveDisplayAngle sigmaX sigmaY tauXY
      = k * 180 := by
  refine ⟨0, ?_⟩
  unfold mohrThetaP1 curveDisplayAngle
  rw [atan2_double_args]
  push_cast
  ring

/-- Witness for C2 at the Default preset (80, −40, 50). -/
theorem principal_angle_formulas_agree_witness :
    ∃ k : ℤ, mohrThetaP1 80 (-40) 50 - curveDisplayAngle 80 (-40) 50 = k * 180 :=
  principal_angle_formulas_agree 80 (-40) 50 (by norm_num)

/-- C3 (amended): the curve-view path `getPrincipalAngles` returns `null`
exactly when `|sigmaX−sigmaY| < 1e-9` and `|tauXY| < 1e-9`, but the circle-view
path applies no degeneracy guard at all: `derived.thetaP1` is computed
unconditionally, and on an exactly hydrostatic state it produces the ordinary
angle `0` (from `atan2(0,0) = 0`) instead of any degenerate signal. -/
theorem degeneracy_guard_only_in_curve_view (sigmaX sigmaY tauXY : ℝ) :
    (getPrincipalAngles sigmaX sigmaY tauXY = none ↔
      |sigmaX - sigmaY| < 1e-9 ∧ |tauXY| < 1e-9) ∧
    (sigmaX = sigmaY → tauXY = 0 → mohrThetaP1 sigmaX sigmaY tauXY = 0) := by
  constructor
  · unfold getPrincipalAngles
    split_ifs with h <;> simp [h]
  · intro h1 h2
    subst h1 h2
    unfold mohrThetaP1 atan2
    have hz : (⟨(sigmaX - sigmaX) / 2, 0⟩ : ℂ) = 0 := by
      apply Complex.ext <;> simp
    rw [hz, Complex.arg_zero]
    ring

/-- Witness for C3's amended statement: the guard equivalence applied at the
Uniaxial preset, and the unguarded circle-path angle evaluated at a
hydrostatic state. -/
theorem degeneracy_guard_only_in_curve_view_witness :
    (getPrincipalAngles 100 0 0 = none ↔ |(100:ℝ) - 0| < 1e-9 ∧ |(0:ℝ)| < 1e-9) ∧
    mohrThetaP1 30 30 0 = 0 :=
  ⟨(degeneracy_guard_only_in_curve_view 100 0 0).1,
   (degeneracy_guard_only_in_curve_view 30 30 0).2 rfl rfl⟩

/-- C3 counterexample: on the hydrostatic state (60, 60, 0) — preset
"Equal Biax" — the curve view reports degeneracy (`null`) while the circle
view's `derived.thetaP1` produces the angle `0`, exactly the value it also
produces for genuinely non-degenerate states; the unguarded path never reports
degeneracy, so the claim that both paths share the guard is false. -/
theorem circle_view_unguarded_at_hydrostatic :
    getPrincipalAngles 60 60 0 = none ∧ mohrThetaP1 60 60 0 = 0 ∧
      mohrThetaP1 100 0 0 = 0 := by
  refine ⟨?_, ?_, ?_⟩
  · unfold getPrincipalAngles
    rw [if_pos (by norm_num)]
  · unfold mohrThetaP1 atan2
    have hz : (⟨((60:ℝ) - 60) / 2, 0⟩ : ℂ) = 0 := by
      apply Complex.ext <;> simp
    rw [hz, Complex.arg_zero]
    ring
  · unfold mohrThetaP1 atan2
    have hz : (⟨((100:ℝ) - 0) / 2, 0⟩ : ℂ) = ((50:ℝ) : ℂ) := by
      apply Complex.ext <;> simp <;> norm_num
    rw [hz, Complex.arg_ofReal_of_nonneg (by norm_num)]
    ring

/-- C4 (amended): for every non-hydrostatic stress state, `getPrincipalAngles`
returns exactly two angles, each normalized into `[0, 180)` by the JS modulo
normalization; the pair is returned in the fixed order
`[angle mod 180, (angle + 90) mod 180]`, which is not sorted. -/
theorem getPrincipalAngles_two_normalized (sigmaX sigmaY tauXY : ℝ)
    (h : ¬(|sigmaX - sigmaY| < 1e-9 ∧ |tauXY| < 1e-9)) :
    ∃ a b : ℝ, getPrincipalAngles sigmaX sigmaY tauXY = some (a, b) ∧
      a = jsnormalize (curveDisplayAngle sigmaX sigmaY tauXY) ∧
      b = jsnormalize (curveDisplayAngle sigmaX sigmaY tauXY + 90) ∧
      0 ≤ a ∧ a < 180 ∧ 0 ≤ b ∧ b < 180 := by
  refine ⟨_, _, ?_, rfl, rfl, (jsnormalize_mem _).1, (jsnormalize_mem _).2,
    (jsnormalize_mem _).1, (jsnormalize_mem _).2⟩
  unfold getPrincipalAngles
  rw [if_neg h]

/-- Witness for C4's amended statement at the Pure Shear preset (0, 0, 60). -/
theorem getPrincipalAngles_two_normalized_witness :
    ∃ a b : ℝ, getPrincipalAngles 0 0 60 = some (a, b) ∧
      a = jsnormalize (curveDisplayAngle 0 0 60) ∧
      b = jsnormalize (curveDisplayAngle 0 0 60 + 90) ∧
      0 ≤ a ∧ a < 180 ∧ 0 ≤ b ∧ b < 180 :=
  getPrincipalAngles_two_normalized 0 0 60 (by norm_num)

theorem jsrem_neg45 : jsrem (-45 : ℝ) 180 = -45 := by
  unfold jsrem jstrunc
  rw [if_neg (by norm_num)]
  norm_num

theorem jsrem_135 : jsrem (135 : ℝ) 180 = 135 := by
  unfold jsrem jstrunc
  rw [if_pos (by norm_num)]
  norm_num

theorem jsrem_45 : jsrem (45 : ℝ) 180 = 45 := by
  unfold jsrem jstrunc
  rw [if_pos (by norm_num)]
  norm_num

theorem jsrem_225 : jsrem (225 : ℝ) 180 = 45 := by
  unfold jsrem jstrunc
  rw [if_pos (by norm_num)]
  norm_num

theorem jsnormalize_neg45 : jsnormalize (-45 : ℝ) = 135 := by
  unfold jsnormalize
  rw [jsrem_neg45]
  norm_num [jsrem_135]

theorem jsnormalize_45 : jsnormalize (45 : ℝ) = 45 := by
  unfold jsnormalize
  rw [jsrem_45]
  norm_num [jsrem_225]

theorem curveDisplayAngle_pure_neg_shear : curveDisplayAngle 0 0 (-60) = -45 := by
  unfold curveDisplayAngle atan2
  have hz : (⟨(0:ℝ) - 0, 2 * (-60)⟩ : ℂ) = (120 : ℝ) * (-Complex.I) := by
    apply Complex.ext <;> simp <;> norm_num
  rw [hz, Complex.arg_real_mul _ (by norm_num), Complex.arg_neg_I]
  have hπ := Real.pi_ne_zero
  field_simp
  ring

/-- C4 counterexample: at the state (0, 0, −60) the base angle is −45°, so
`getPrincipalAngles` returns `[135, 45]` — the first element is the larger of
the two normalized values, refuting "the first element is always the smaller".
-/
theorem getPrincipalAngles_first_larger :
    getPrincipalAngles 0 0 (-60) = some (135, 45) ∧ (45 : ℝ) < 135 := by
  refine ⟨?_, by norm_num⟩
  unfold getPrincipalAngles
  rw [if_neg (by norm_num)]
  have h90 : curveDisplayAngle 0 0 (-60) + 90 = 45 := by
    rw [curveDisplayAngle_pure_neg_shear]
    norm_num
  rw [h90, curveDisplayAngle_pure_neg_shear, jsnormalize_neg45, jsnormalize_45]

/-- A sampled curve point `{ theta, value }` as pushed by `computeCurves`. -/
structure Pt where
  theta : ℝ
  value : ℝ

/-- `computeCurves` from `StressGraph.jsx`: for `i = 0..steps`,
`theta = thetaMin + (i / steps) * (thetaMax - thetaMin)`, pushing
`{theta, sigma}` onto `sigmaPoints` and `{theta, tau}` onto `tauPoints`.
There is no validation of the range: the loop runs for any bounds. -/
def computeCurves (sigmaX sigmaY tauXY thetaMin thetaMax : ℝ) (steps : ℕ) :
    List Pt × List Pt :=
  ((List.range (steps + 1)).map fun (i : ℕ) =>
      let theta := thetaMin + ((i : ℝ) / steps) * (thetaMax - thetaMin)
      ⟨theta, sigmaXPrime sigmaX sigmaY tauXY theta⟩,
   (List.range (steps + 1)).map fun (i : ℕ) =>
      let theta := thetaMin + ((i : ℝ) / steps) * (thetaMax - thetaMin)
      ⟨theta, tauPrime sigmaX sigmaY tauXY theta⟩)

/-- The body of the principal-marker loop in `StressGraph.jsx`'s `render`, for
one adjacent pair `(a, b)` of tau samples and the co-indexed pair `(sa, sb)` of
sigma samples: when `a.value * b.value <= 0 && |a.value - b.value| > 1e-9`,
the marker sits at the interpolated crossing
`tCross = a.theta + (0 - a.value) / (b.value - a.value) * (b.theta - a.theta)`
with sigma value
`sa.value + (tCross - sa.theta) / (sb.theta - sa.theta) * (sb.value - sa.value)`. -/
def markerOf (tp sp : Pt × Pt) : Option (ℝ × ℝ) :=
  open scoped Classical in
  if tp.1.value * tp.2.value ≤ 0 ∧ |tp.1.value - tp.2.value| > 1e-9 then
    let tCross := tp.1.theta +
      (0 - tp.1.value) / (tp.2.value - tp.1.value) * (tp.2.theta - tp.1.theta)
    some (tCross,
      sp.1.value + (tCross - sp.1.theta) / (sp.2.theta - sp.1.theta)
        * (sp.2.value - sp.1.value))
  else none

/-- The principal-marker loop of `StressGraph.jsx`'s `render`: iterate over
adjacent index pairs of the tau samples (with the co-indexed sigma samples) and
collect the emitted markers in order. -/
def zeroCrossMarkers : List Pt → List Pt → List (ℝ × ℝ)
  | a :: b :: tRest, sa :: sb :: sRest =>
      (match markerOf (a, b) (sa, sb) with
       | some m => [m]
       | none => []) ++ zeroCrossMarkers (b :: tRest) (sb :: sRest)
  | _, _ => []

/-- The claim's description of one marker, with the sigma value interpolated by
the same fraction `(0 - a.value) / (b.value - a.value)` as the crossing angle. -/
def markerSameFraction (tp sp : Pt × Pt) : Option (ℝ × ℝ) :=
  open scoped Classical in
  if tp.1.value * tp.2.value ≤ 0 ∧ |tp.1.value - tp.2.value| > 1e-9 then
    let f := (0 - tp.1.value) / (tp.2.value - tp.1.value)
    some (tp.1.theta + f * (tp.2.theta - tp.1.theta),
          sp.1.value + f * (sp.2.value - sp.1.value))
  else none

theorem zeroCrossMarkers_eq_zipWith (tps sps : List Pt) :
    zeroCrossMarkers tps sps =
      (List.zipWith markerOf (tps.zip tps.tail) (sps.zip sps.tail)).reduceOption := by
  induction tps generalizing sps with
  | nil => simp [zeroCrossMarkers]
  | cons a rest ih =>
    cases rest with
    | nil => simp [zeroCrossMarkers]
    | cons b tRest =>
      cases sps with
      | nil => simp [zeroCrossMarkers]
      | cons sa sRest =>
        cases sRest with
        | nil => simp [zeroCrossMarkers]
        | cons sb sRest2 =>
          have hih := ih (sb :: sRest2)
          simp only [zeroCrossMarkers, hih, List.tail_cons, List.zip_cons_cons,
            List.zipWith_cons_cons]
          cases hm : markerOf (a, b) (sa, sb) with
          | none => simp [List.reduceOption_cons_of_none]
          | some m => simp [List.reduceOption_cons_of_some]

theorem zeroCrossMarkers_nil_of_no_sign_change (tps sps : List Pt)
    (h : ∀ p ∈ tps.zip tps.tail, 0 < p.1.value * p.2.value) :
    zeroCrossMarkers tps sps = [] := by
  induction tps generalizing sps with
  | nil => simp [zeroCrossMarkers]
  | cons a rest ih =>
    cases rest with
    | nil => simp [zeroCrossMarkers]
    | cons b tRest =>
      cases sps with
      | nil => simp [zeroCrossMarkers]
      | cons sa sRest =>
        cases sRest with
        | nil => simp [zeroCrossMarkers]
        | cons sb sRest2 =>
          have hpos : 0 < a.value * b.value := by
            have := h (a, b) (by simp)
            simpa using this
          have hm : markerOf (a, b) (sa, sb) = none := by
            unfold markerOf
            rw [if_neg]
            intro hc
            exact absurd hc.1 (not_le.mpr hpos)
          have hrec : ∀ p ∈ (b :: tRest).zip ((b :: tRest).tail),
              0 < p.1.value * p.2.value := by
            intro p hp
            exact h p (by simp [List.zip_cons_cons] at hp ⊢; right; exact hp)
          simp only [zeroCrossMarkers, hm]
          simpa using ih (sb :: sRest2) hrec

/-- C5: the zero-crossing marker search of `StressGraph.jsx`'s `render` emits,
in order, one marker per adjacent tau-sample pair with
`a.value * b.value ≤ 0` and `|a.value − b.value| > 1e-9`, at the linearly
interpolated crossing angle with the co-located sigma value; when samples share
the theta grid with distinct adjacent thetas, the sigma value is interpolated
by the same fraction as the crossing angle; and it emits no marker when no
adjacent pair changes sign. (The Lean embedding is total, so no input sequence
can raise.) -/
theorem zeroCrossMarkers_spec :
    (∀ tauPoints sigmaPoints : List Pt,
      zeroCrossMarkers tauPoints sigmaPoints =
        (List.zipWith markerOf (tauPoints.zip tauPoints.tail)
          (sigmaPoints.zip sigmaPoints.tail)).reduceOption) ∧
    (∀ a b sa sb : Pt, sa.theta = a.theta → sb.theta = b.theta →
      a.theta ≠ b.theta →
      markerOf (a, b) (sa, sb) = markerSameFraction (a, b) (sa, sb)) ∧
    (∀ tauPoints sigmaPoints : List Pt,
      (∀ p ∈ tauPoints.zip tauPoints.tail, 0 < p.1.value * p.2.value) →
        zeroCrossMarkers tauPoints sigmaPoints = []) := by
  refine ⟨zeroCrossMarkers_eq_zipWith, ?_, zeroCrossMarkers_nil_of_no_sign_change⟩
  intro a b sa sb hsa hsb hne
  unfold markerOf markerSameFraction
  split_ifs with hc
  · have hsub : b.theta - a.theta ≠ 0 := sub_ne_zero.mpr (Ne.symm hne)
    have hval : a.value ≠ b.value :=
      sub_ne_zero.mp (abs_pos.mp (lt_trans (by norm_num) hc.2))
    have hv : b.value - a.value ≠ 0 := sub_ne_zero.mpr (Ne.symm hval)
    simp only [Option.some.injEq, Prod.mk.injEq]
    refine ⟨trivial, ?_⟩
    rw [hsa, hsb]
    field_simp
    ring
  · rfl

/-- Witness for C5: a strictly positive tau sequence yields no markers, and on
a shared theta grid the source's sigma interpolation agrees with the
same-fraction form. -/
theorem zeroCrossMarkers_spec_witness :
    zeroCrossMarkers [⟨0, 1⟩, ⟨1, 2⟩] [⟨0, 5⟩, ⟨1, 6⟩] = [] ∧
    markerOf (⟨0, -1⟩, ⟨1, 1⟩) (⟨0, 5⟩, ⟨1, 6⟩) =
      markerSameFraction (⟨0, -1⟩, ⟨1, 1⟩) (⟨0, 5⟩, ⟨1, 6⟩) := by
  constructor
  · apply zeroCrossMarkers_spec.2.2
    intro p hp
    simp only [List.tail_cons, List.zip_cons_cons, List.zip_nil_right,
      List.mem_singleton] at hp
    subst hp
    norm_num
  · exact zeroCrossMarkers_spec.2.1 _ _ _ _ rfl rfl (by norm_num)

/-- C6 (amended): `computeCurves` performs no range validation. Under the
precondition `thetaMin < thetaMax` (and at least one step) it produces
`steps + 1` evenly spaced angles, inclusive of both endpoints, strictly
ascending in theta, with the tau samples sharing the sigma theta grid. -/
theorem computeCurves_grid (sigmaX sigmaY tauXY thetaMin thetaMax : ℝ) (n : ℕ)
    (hr : thetaMin < thetaMax) (hn : 1 ≤ n) :
    (computeCurves sigmaX sigmaY tauXY thetaMin thetaMax n).1.length = n + 1 ∧
    (∀ i (h : i < (computeCurves sigmaX sigmaY tauXY thetaMin thetaMax n).1.length),
      ((computeCurves sigmaX sigmaY tauXY thetaMin thetaMax n).1.get ⟨i, h⟩).theta
        = thetaMin + ((i : ℝ) / n) * (thetaMax - thetaMin)) ∧
    ((computeCurves sigmaX sigmaY tauXY thetaMin thetaMax n).1.map Pt.theta).Pairwise
      (· < ·) ∧
    ((computeCurves sigmaX sigmaY tauXY thetaMin thetaMax n).1.map Pt.theta).head?
      = some thetaMin ∧
    ((computeCurves sigmaX sigmaY tauXY thetaMin thetaMax n).1.map Pt.theta).getLast?
      = some thetaMax ∧
    (computeCurves sigmaX sigmaY tauXY thetaMin thetaMax n).2.map Pt.theta
      = (computeCurves sigmaX sigmaY tauXY thetaMin thetaMax n).1.map Pt.theta := by
  have hn0 : (n : ℝ) ≠ 0 := Nat.cast_ne_zero.mpr (Nat.one_le_iff_ne_zero.mp hn)
  have hnpos : (0 : ℝ) < n := Nat.cast_pos.mpr hn
  have hmap : (computeCurves sigmaX sigmaY tauXY thetaMin thetaMax n).1.map Pt.theta
      = (List.range (n + 1)).map
          (fun (i : ℕ) => thetaMin + ((i : ℝ) / n) * (thetaMax - thetaMin)) := by
    simp [computeCurves, List.map_map, Function.comp]
  refine ⟨?_, ?_, ?_, ?_, ?_, ?_⟩
  · simp [computeCurves]
  · intro i h
    simp [computeCurves, List.get_eq_getElem, List.getElem_map, List.getElem_range]
  · rw [hmap]
    refine List.Pairwise.map _ ?_ (List.pairwise_lt_range (n + 1))
    intro i j hij
    have hcast : (i : ℝ) < (j : ℝ) := Nat.cast_lt.mpr hij
    have hdiv : (i : ℝ) / n < (j : ℝ) / n := (div_lt_div_iff_of_pos_right hnpos).mpr hcast
    have := mul_lt_mul_of_pos_right hdiv (sub_pos.mpr hr)
    linarith
  · rw [hmap, List.range_succ_eq_map]
    simp
  · rw [hmap, List.range_succ, List.map_append]
    simp only [List.map_cons, List.map_nil, List.getLast?_concat, Option.some.injEq]
    rw [div_self hn0]
    ring
  · simp [computeCurves, List.map_map, Function.comp]

/-- C6 counterexample: called with `thetaMin = 10 ≥ 0 = thetaMax`,
`computeCurves` does not fail fast — it silently runs the loop and returns a
full `steps + 1`-sample sequence whose thetas descend `[10, 5, 0]`. -/
theorem computeCurves_silent_on_inverted_range :
    (computeCurves 0 0 0 10 0 2).1.map Pt.theta = [(10 : ℝ), 5, 0] ∧
    (computeCurves 0 0 0 10 0 2).1.length = 3 := by
  constructor
  · simp [computeCurves, List.range_succ]
    norm_num
  · simp [computeCurves]

/-- Witness for C6's amended statement on the default 0..180 range with two
steps. -/
theorem computeCurves_grid_witness :
    (computeCurves 0 0 0 0 180 2).1.length = 2 + 1 ∧
    ((computeCurves 0 0 0 0 180 2).1.map Pt.theta).head? = some 0 ∧
    ((computeCurves 0 0 0 0 180 2).1.map Pt.theta).getLast? = some 180 := by
  have h := computeCurves_grid 0 0 0 0 180 2 (by norm_num) (by norm_num)
  exact ⟨h.1, h.2.2.2.1, h.2.2.2.2.1⟩

/-- `lerp` from `StressGraph.jsx`: `a + (b - a) * t`. -/
def lerp (a b t : ℝ) : ℝ := a + (b - a) * t

/-- One stress-component smoothing tick of `StressGraph.jsx`'s `render`:
`d.sigmaX = lerp(d.sigmaX, t.sigmaX, SPEED)` with `SPEED = 0.12`. -/
def advanceStress (displayed target : ℝ) : ℝ := lerp displayed target 0.12

/-- One angle smoothing tick of `BodyOrientation`'s `draw`:
`dt = target - displayed; displayed += dt * 0.14;` then
`if (|dt| < 0.01) displayed = target` — so the tick snaps exactly to the
target whenever the gap was below `0.01`. -/
def advanceAngle (displayed target : ℝ) : ℝ :=
  open scoped Classical in
  if |target - displayed| < 0.01 then target
  else displayed + (target - displayed) * 0.14

theorem advanceStress_iter_abs (target displayed : ℝ) (n : ℕ) :
    |(fun d => advanceStress d target)^[n] displayed - target|
      = 0.88 ^ n * |displayed - target| := by
  induction n generalizing displayed with
  | zero => simp
  | succ n ih =>
    rw [Function.iterate_succ_apply, ih]
    have hstep : advanceStress displayed target - target
        = 0.88 * (displayed - target) := by
      unfold advanceStress lerp
      ring
    calc 0.88 ^ n * |advanceStress displayed target - target|
        = 0.88 ^ n * |0.88 * (displayed - target)| := by rw [hstep]
      _ = 0.88 ^ n * (0.88 * |displayed - target|) := by
          rw [abs_mul, abs_of_pos (by norm_num : (0:ℝ) < 0.88)]
      _ = 0.88 ^ (n + 1) * |displayed - target| := by ring

theorem advanceAngle_step_abs (target displayed : ℝ) :
    |advanceAngle displayed target - target| ≤ 0.86 * |displayed - target| := by
  unfold advanceAngle
  split_ifs with h
  · simp
    positivity
  · have hstep : displayed + (target - displayed) * 0.14 - target
        = 0.86 * (displayed - target) := by ring
    rw [hstep, abs_mul, abs_of_pos (by norm_num : (0:ℝ) < 0.86)]

theorem advanceAngle_iter_abs (target displayed : ℝ) (n : ℕ) :
    |(fun d => advanceAngle d target)^[n] displayed - target|
      ≤ 0.86 ^ n * |displayed - target| := by
  induction n generalizing displayed with
  | zero => simp
  | succ n ih =>
    rw [Function.iterate_succ_apply]
    calc |(fun d => advanceAngle d target)^[n] (advanceAngle displayed target) - target|
        ≤ 0.86 ^ n * |advanceAngle displayed target - target| := ih _
      _ ≤ 0.86 ^ n * (0.86 * |displayed - target|) := by
          exact mul_le_mul_of_nonneg_left (advanceAngle_step_abs target displayed)
            (pow_nonneg (by norm_num) n)
      _ = 0.86 ^ (n + 1) * |displayed - target| := by ring

theorem exists_pow_mul_lt (r C : ℝ) (hr0 : 0 ≤ r) (hr1 : r < 1) (hC : 0 ≤ C) :
    ∃ n : ℕ, r ^ n * C < 1e-6 := by
  obtain ⟨n, hn⟩ := exists_pow_lt_of_lt_one
    (show (0:ℝ) < 1e-6 / (C + 1) by positivity) hr1
  refine ⟨n, ?_⟩
  have h1 : r ^ n * C ≤ r ^ n * (C + 1) :=
    mul_le_mul_of_nonneg_left (by linarith) (pow_nonneg hr0 n)
  have h2 : r ^ n * (C + 1) < 1e-6 / (C + 1) * (C + 1) :=
    mul_lt_mul_of_pos_right hn (by positivity)
  have h3 : 1e-6 / (C + 1) * (C + 1) = 1e-6 := div_mul_cancel₀ _ (by positivity)
  linarith

/-- C7 (amended): the stress tick is exactly
`displayed + (target − displayed) × 0.12`; the angle tick is
`displayed + (target − displayed) × 0.14` whenever the gap is at least `0.01`,
and snaps exactly to the target below that threshold. In all cases the updated
value lies between the old value and the target, and repeated application
brings the displayed value within `1e-6` of the target. -/
theorem smoothing_tick_properties (displayed target : ℝ) :
    (advanceStress displayed target = displayed + (target - displayed) * 0.12) ∧
    (0.01 ≤ |target - displayed| →
      advanceAngle displayed target = displayed + (target - displayed) * 0.14) ∧
    (|target - displayed| < 0.01 → advanceAngle displayed target = target) ∧
    (min displayed target ≤ advanceStress displayed target ∧
      advanceStress displayed target ≤ max displayed target) ∧
    (min displayed target ≤ advanceAngle displayed target ∧
      advanceAngle displayed target ≤ max displayed target) ∧
    (∃ n : ℕ, |(fun d => advanceStress d target)^[n] displayed - target| < 1e-6) ∧
    (∃ n : ℕ, |(fun d => advanceAngle d target)^[n] displayed - target| < 1e-6) := by
  have hsform : advanceStress displayed target
      = displayed + (target - displayed) * 0.12 := by
    unfold advanceStress lerp
    ring
  refine ⟨hsform, ?_, ?_, ?_, ?_, ?_, ?_⟩
  · intro h
    unfold advanceAngle
    rw [if_neg (not_lt.mpr h)]
  · intro h
    unfold advanceAngle
    rw [if_pos h]
  · rw [hsform]
    rcases le_total displayed target with h | h
    · rw [min_eq_left h, max_eq_right h]
      constructor <;> nlinarith
    · rw [min_eq_right h, max_eq_left h]
      constructor <;> nlinarith
  · unfold advanceAngle
    split_ifs with hsnap
    · exact ⟨min_le_right _ _, le_max_right _ _⟩
    · rcases le_total displayed target with h | h
      · rw [min_eq_left h, max_eq_right h]
        constructor <;> nlinarith
      · rw [min_eq_right h, max_eq_left h]
        constructor <;> nlinarith
  · obtain ⟨n, hn⟩ := exists_pow_mul_lt 0.88 |displayed - target| (by norm_num)
      (by norm_num) (abs_nonneg _)
    exact ⟨n, by rw [advanceStress_iter_abs]; exact hn⟩
  · obtain ⟨n, hn⟩ := exists_pow_mul_lt 0.86 |displayed - target| (by norm_num)
      (by norm_num) (abs_nonneg _)
    exact ⟨n, lt_of_le_of_lt (advanceAngle_iter_abs target displayed n) hn⟩

/-- Witness for C7's amended statement: a 5° gap uses the lerp formula, a
0.005° gap snaps to the target. -/
theorem smoothing_tick_properties_witness :
    advanceAngle 0 5 = 0 + (5 - 0) * 0.14 ∧ advanceAngle 0 (1 / 200) = 1 / 200 :=
  ⟨(smoothing_tick_properties 0 5).2.1 (by rw [sub_zero, abs_of_pos] <;> norm_num),
   (smoothing_tick_properties 0 (1 / 200)).2.2.1
     (by rw [sub_zero, abs_of_pos] <;> norm_num)⟩

/-- C7 counterexample: the angle tick does not always apply the claimed map
`displayed + (target − displayed) × 0.14` — at `displayed = 0`,
`target = 0.005` the gap is below the 0.01 snap threshold of
`BodyOrientation`'s `draw`, so the tick returns the target `0.005` itself,
not `0.005 × 0.14 = 0.0007`. -/
theorem advanceAngle_snaps_inside_threshold :
    advanceAngle 0 (1 / 200) = 1 / 200 ∧
    (0 : ℝ) + (1 / 200 - 0) * 0.14 ≠ 1 / 200 := by
  constructor
  · unfold advanceAngle
    rw [if_pos (by rw [sub_zero, abs_of_pos] <;> norm_num)]
  · norm_num

/-- The zoom values reachable in `MohrsCircle.jsx` from the initial
`useState(1.6)`: a wheel notch applies `z * 1.12` (or `z * (1/1.12)`) clamped
by `Math.min(Math.max(·, 0.4), 8)`; the toolbar buttons apply
`Math.min(z * 1.25, 8)` and `Math.max(z / 1.25, 0.4)`; reset sets `1`. -/
inductive ZoomReachable : ℝ → Prop where
  | init : ZoomReachable 1.6
  | wheelIn {z : ℝ} : ZoomReachable z → ZoomReachable (min (max (z * 1.12) 0.4) 8)
  | wheelOut {z : ℝ} :
      ZoomReachable z → ZoomReachable (min (max (z * (1 / 1.12)) 0.4) 8)
  | buttonIn {z : ℝ} : ZoomReachable z → ZoomReachable (min (z * 1.25) 8)
  | buttonOut {z : ℝ} : ZoomReachable z → ZoomReachable (max (z / 1.25) 0.4)
  | reset {z : ℝ} : ZoomReachable z → ZoomReachable 1

/-- C8: every zoom value reachable from the initial zoom through wheel
notches, button steps and reset stays in `[0.4, 8]` — repeated zoom-in never
exceeds 8 and repeated zoom-out never goes below 0.4. -/
theorem zoom_clamped (z : ℝ) (h : ZoomReachable z) : 0.4 ≤ z ∧ z ≤ 8 := by
  induction h with
  | init => norm_num
  | wheelIn _ _ =>
    exact ⟨le_min (le_max_right _ _) (by norm_num), min_le_right _ _⟩
  | wheelOut _ _ =>
    exact ⟨le_min (le_max_right _ _) (by norm_num), min_le_right _ _⟩
  | buttonIn _ ih =>
    refine ⟨le_min ?_ (by norm_num), min_le_right _ _⟩
    nlinarith [ih.1]
  | buttonOut _ ih =>
    refine ⟨le_max_right _ _, max_le ?_ (by norm_num)⟩
    rw [div_le_iff₀ (by norm_num : (0:ℝ) < 1.25)]
    linarith [ih.2]
  | reset _ _ => norm_num

/-- Witness for C8: one wheel notch from the initial zoom stays clamped. -/
theorem zoom_clamped_witness :
    0.4 ≤ min (max ((1.6 : ℝ) * 1.12) 0.4) 8 ∧
      min (max ((1.6 : ℝ) * 1.12) 0.4) 8 ≤ 8 :=
  zoom_clamped _ (ZoomReachable.wheelIn ZoomReachable.init)

/-- The zoom/pan state of `MohrsCircle.jsx`. -/
structure Viewport where
  zoom : ℝ
  panX : ℝ
  panY : ℝ

/-- The initial viewport of `MohrsCircle.jsx`: `useState(1.6)` for zoom and
`useState({ x: 0, y: 0 })` for pan. -/
def initialViewport : Viewport := ⟨1.6, 0, 0⟩

/-- `handleDblClick` from `MohrsCircle.jsx` (also wired to the toolbar reset
button): `setZoom(1); setPan({ x: 0, y: 0 })`. -/
def handleDblClick (_ : Viewport) : Viewport := ⟨1, 0, 0⟩

/-- C9 (amended): the reset operation restores pan to `(0, 0)` but sets zoom
to `1`, which is not the initial zoom `1.6`. -/
theorem handleDblClick_resets (v : Viewport) :
    (handleDblClick v).zoom = 1 ∧ (handleDblClick v).panX = 0 ∧
    (handleDblClick v).panY = 0 ∧ initialViewport.zoom = 1.6 ∧
    (handleDblClick v).zoom ≠ initialViewport.zoom := by
  refine ⟨rfl, rfl, rfl, rfl, ?_⟩
  unfold handleDblClick initialViewport
  norm_num

/-- C9 counterexample: resetting any viewport yields zoom `1`, not the
declared initial zoom `1.6`, refuting "reset restores zoom to the initial
1.6". -/
theorem reset_zoom_ne_initial :
    (handleDblClick ⟨2.5, 30, -40⟩).zoom = 1 ∧ initialViewport.zoom = 1.6 ∧
    (handleDblClick ⟨2.5, 30, -40⟩).zoom ≠ initialViewport.zoom := by
  refine ⟨rfl, rfl, ?_⟩
  unfold handleDblClick initialViewport
  norm_num

/-- `applyMin` from `ThetaRangeControl.jsx`: the `parseFloat` result is
modelled as `Option ℝ` (`none` for NaN); the new minimum is committed only
when it parses and is strictly below the current maximum, otherwise
`thetaMin` stays unchanged. -/
def applyMin (parsed : Option ℝ) (thetaMin thetaMax : ℝ) : ℝ :=
  open scoped Classical in
  match parsed with
  | none => thetaMin
  | some v => if v < thetaMax then v else thetaMin

/-- `applyMax` from `ThetaRangeControl.jsx`: the new maximum is committed only
when it parses and is strictly above the current minimum, otherwise
`thetaMax` stays unchanged. -/
def applyMax (parsed : Option ℝ) (thetaMin thetaMax : ℝ) : ℝ :=
  open scoped Classical in
  match parsed with
  | none => thetaMax
  | some v => if thetaMin < v then v else thetaMax

/-- C10: `ThetaRangeControl` preserves `thetaMin < thetaMax` across every
edit: `applyMin` commits only a parsed value strictly below the current
maximum, `applyMax` only one strictly above the current minimum, and
non-numeric or out-of-order input leaves the bounds unchanged. -/
theorem thetaRange_invariant_preserved (parsed : Option ℝ)
    (thetaMin thetaMax : ℝ) (h : thetaMin < thetaMax) :
    (applyMin parsed thetaMin thetaMax < thetaMax ∧
      thetaMin < applyMax parsed thetaMin thetaMax) ∧
    (applyMin none thetaMin thetaMax = thetaMin ∧
      applyMax none thetaMin thetaMax = thetaMax) ∧
    (∀ v : ℝ, ¬v < thetaMax → applyMin (some v) thetaMin thetaMax = thetaMin) ∧
    (∀ v : ℝ, ¬thetaMin < v → applyMax (some v) thetaMin thetaMax = thetaMax) ∧
    (∀ v : ℝ, v < thetaMax → applyMin (some v) thetaMin thetaMax = v) ∧
    (∀ v : ℝ, thetaMin < v → applyMax (some v) thetaMin thetaMax = v) := by
  refine ⟨⟨?_, ?_⟩, ⟨rfl, rfl⟩, ?_, ?_, ?_, ?_⟩
  · cases parsed with
    | none => exact h
    | some v =>
      simp only [applyMin]
      split_ifs with hv
      · exact hv
      · exact h
  · cases parsed with
    | none => exact h
    | some v =>
      simp only [applyMax]
      split_ifs with hv
      · exact hv
      · exact h
  · intro v hv
    simp only [applyMin, if_neg hv]
  · intro v hv
    simp only [applyMax, if_neg hv]
  · intro v hv
    simp only [applyMin, if_pos hv]
  · intro v hv
    simp only [applyMax, if_pos hv]

/-- Witness for C10: editing the minimum to 90 on the 0..180 range keeps the
invariant. -/
theorem thetaRange_invariant_preserved_witness :
    applyMin (some 90) 0 180 < 180 ∧ (0 : ℝ) < applyMax (some 90) 0 180 :=
  (thetaRange_invariant_preserved (some 90) 0 180 (by norm_num)).1

end
